import Mathlib

/-!
# Verification of the Monocle MicroPython BLE console and battery estimator

Shallow embedding of the core of `src/drivers/monocle_ble.c` and
`src/port/driver/battery.c`:

* the fixed-capacity ring buffers (`ring_full`, `ring_empty`, `ring_push`,
  `ring_pop`) used for the RX/TX byte streams;
* the stream flush engine `ble_flush_tx`;
* the BLE event handler `SWI2_IRQHandler` state transitions (connection
  handle, MTU negotiation, characteristic writes);
* the battery estimator (`battery_voltage_to_percent`,
  `battery_travelling_mean`).

Machine integers (`uint16_t`) are modelled as `Nat` with explicit
`% 65536` where the C code can wrap.  C `float`/`double` arithmetic is
modelled by exact rational arithmetic over `ℚ`; the quantities involved
are small calibration constants, so the claims under study are about the
ideal real-number behaviour of the formulas.
-/

set_option maxRecDepth 40000

namespace Monocle

/-- `RING_BUFFER_LENGTH` from monocle_ble.c: `1024 + 45`. -/
def RING_BUFFER_LENGTH : Nat := 1024 + 45

/-- `MAX_MTU_LENGTH` from monocle_ble.c. -/
def MAX_MTU_LENGTH : Nat := 128

/-- Modulus of the C `uint16_t` type used for ring indices and MTU values. -/
def UINT16_MOD : Nat := 65536

/-- `ring_buf_t`: a fixed array of bytes plus `uint16_t` head and tail
indices.  Bytes are `Nat` (the code never computes on them). -/
structure ring_buf_t where
  buffer : List Nat
  head : Nat
  tail : Nat
deriving Repr, DecidableEq

/-- Zero-initialised ring buffer (C static storage). -/
def ring_init : ring_buf_t :=
  { buffer := List.replicate RING_BUFFER_LENGTH 0, head := 0, tail := 0 }

/-- `ring_full`: `next = tail + 1` (uint16), wrapped to 0 at the array
size, compared with `head`. -/
def ring_full (ring : ring_buf_t) : Bool :=
  let next := (ring.tail + 1) % UINT16_MOD
  let next := if next = RING_BUFFER_LENGTH then 0 else next
  next == ring.head

/-- `ring_empty`: `head == tail`. -/
def ring_empty (ring : ring_buf_t) : Bool :=
  ring.head == ring.tail

/-- `ring_push`: store at `tail`, post-increment `tail` (uint16), wrap at
the array size. -/
def ring_push (ring : ring_buf_t) (byte : Nat) : ring_buf_t :=
  let buffer := ring.buffer.set ring.tail byte
  let tail := (ring.tail + 1) % UINT16_MOD
  let tail := if tail = RING_BUFFER_LENGTH then 0 else tail
  { buffer := buffer, head := ring.head, tail := tail }

/-- `ring_pop`: read at `head`, post-increment `head` (uint16), wrap at
the array size.  Returns the byte and the new buffer state. -/
def ring_pop (ring : ring_buf_t) : Nat × ring_buf_t :=
  let byte := ring.buffer.getD ring.head 0
  let head := (ring.head + 1) % UINT16_MOD
  let head := if head = RING_BUFFER_LENGTH then 0 else head
  (byte, { buffer := ring.buffer, head := head, tail := ring.tail })

/-! ### Abstraction: distance, logical contents and validity -/

/-- Number of bytes logically held by the ring buffer. -/
def ring_dist (r : ring_buf_t) : Nat :=
  (r.tail + RING_BUFFER_LENGTH - r.head) % RING_BUFFER_LENGTH

/-- The bytes held, in FIFO order, oldest first. -/
def ring_contents (r : ring_buf_t) : List Nat :=
  (List.range (ring_dist r)).map
    (fun i => r.buffer.getD ((r.head + i) % RING_BUFFER_LENGTH) 0)

/-- State invariant: indices in range, storage of the declared size. -/
def ring_valid (r : ring_buf_t) : Prop :=
  r.head < RING_BUFFER_LENGTH ∧ r.tail < RING_BUFFER_LENGTH ∧
    r.buffer.length = RING_BUFFER_LENGTH

/-- Push a whole list of bytes, first element first. -/
def ring_push_list (r : ring_buf_t) (bs : List Nat) : ring_buf_t :=
  bs.foldl ring_push r

/-- Pop `n` bytes, collecting them in order. -/
def ring_pop_n : Nat → ring_buf_t → List Nat × ring_buf_t
  | 0, r => ([], r)
  | n + 1, r =>
    let (b, r') := ring_pop r
    let (bs, r'') := ring_pop_n n r'
    (b :: bs, r'')

/-! ### BLE connection state, flush engine and event handler -/

/-- `BLE_CONN_HANDLE_INVALID` from the SoftDevice headers (`0xFFFF`). -/
def BLE_CONN_HANDLE_INVALID : Nat := 65535

/-- `BLE_GAP_ADV_SET_HANDLE_NOT_SET` from the SoftDevice headers (`0xFF`). -/
def BLE_GAP_ADV_SET_HANDLE_NOT_SET : Nat := 255

/-- The mutable state of monocle_ble.c: the `ble_handles` struct (connection
and advertising handles), the `negotiated_mtu` static, and the two ring
buffers `rx` and `tx`. -/
structure BleState where
  connection : Nat
  advertising : Nat
  negotiated_mtu : Nat
  rx : ring_buf_t
  tx : ring_buf_t
deriving Repr, DecidableEq

/-- C static initialisation: `ble_handles` initialised with the two sentinel
handles, `negotiated_mtu` zero-initialised, both ring buffers zeroed. -/
def ble_init_state : BleState :=
  { connection := BLE_CONN_HANDLE_INVALID
    advertising := BLE_GAP_ADV_SET_HANDLE_NOT_SET
    negotiated_mtu := 0
    rx := ring_init
    tx := ring_init }

/-- The pop loop of `ble_flush_tx`: while the ring is not empty, pop one byte
into the outgoing frame and stop as soon as `out_len >= negotiated_mtu`.
The C loop terminates because every pop shrinks `ring_dist`; the fuel
argument (instantiated with `RING_BUFFER_LENGTH`, an upper bound of
`ring_dist`) makes the recursion structural. -/
def flush_loop : Nat → ring_buf_t → List Nat → Nat → List Nat × ring_buf_t
  | 0, r, acc, _ => (acc, r)
  | fuel + 1, r, acc, mtu =>
    if ring_empty r then (acc, r)
    else
      let (b, r') := ring_pop r
      let acc' := acc ++ [b]
      if mtu ≤ acc'.length then (acc', r') else flush_loop fuel r' acc' mtu

/-- `ble_flush_tx`: return immediately if the tx ring buffer is empty,
otherwise drain up to one MTU-sized frame and hand it to
`sd_ble_gatts_hvx` (modelled as the returned `Option` frame; the
retry-on-`NRF_ERROR_RESOURCES` loop and the ignored stale-handle errors
are external to the state). -/
def ble_flush_tx (s : BleState) : BleState × Option (List Nat) :=
  if ring_empty s.tx then (s, none)
  else
    let (frame, tx') := flush_loop RING_BUFFER_LENGTH s.tx [] s.negotiated_mtu
    ({ s with tx := tx' }, some frame)

/-- The `BLE_GATTS_EVT_WRITE` loop of `SWI2_IRQHandler`: for each incoming
byte, stop when the rx ring is full, otherwise push it. -/
def write_into_rx : ring_buf_t → List Nat → ring_buf_t
  | r, [] => r
  | r, b :: rest => if ring_full r then r else write_into_rx (ring_push r b) rest

/-- BLE events dispatched by `SWI2_IRQHandler` (the tagged union of the
SoftDevice event ids handled by the switch). -/
inductive BleEvent where
  | connected (conn_handle : Nat)
  | disconnected
  | phy_update_request
  | exchange_mtu_request (client_rx_mtu : Nat)
  | write (data : List Nat)
  | gattc_timeout
  | gatts_timeout
  | sys_attr_missing
  | sec_params_request
  | other
deriving Repr, DecidableEq

/-- State transition of one `SWI2_IRQHandler` switch case.  Replies sent to
the SoftDevice (`sd_ble_gap_*`, `sd_ble_gatts_*`) do not change this
state; the MTU case stores
`MAX_MTU_LENGTH < client_mtu ? MAX_MTU_LENGTH - 3 : client_mtu - 3`
into the `uint16_t` `negotiated_mtu` (the subtraction wraps modulo 2^16
exactly as the C conversion to `uint16_t` does). -/
def SWI2_handle_evt (s : BleState) (e : BleEvent) : BleState :=
  match e with
  | .connected h => { s with connection := h % UINT16_MOD }
  | .disconnected => { s with connection := BLE_CONN_HANDLE_INVALID }
  | .exchange_mtu_request client_rx_mtu =>
    { s with negotiated_mtu :=
        if MAX_MTU_LENGTH < client_rx_mtu then MAX_MTU_LENGTH - 3
        else (client_rx_mtu + (UINT16_MOD - 3)) % UINT16_MOD }
  | .write data => { s with rx := write_into_rx s.rx data }
  | _ => s

/-- Concrete state used to examine the flush engine before MTU negotiation:
the zero-initialised state with five bytes pending in the tx ring. -/
def c4_state : BleState :=
  { ble_init_state with tx := ring_push_list ring_init [1, 2, 3, 4, 5] }

/-- Concrete state used to examine the drain count: `negotiated_mtu = 1`
and `2 * 1 + 5 = 7` bytes pending in the tx ring. -/
def c5_state : BleState :=
  { ble_init_state with
      negotiated_mtu := 1
      tx := ring_push_list ring_init [1, 2, 3, 4, 5, 6, 7] }

/-! ### Battery estimator -/

/-- `battery_discharge_curve` from battery.c, as exact rationals. -/
def battery_discharge_curve : List ℚ :=
  [380/100, 345/100, 318/100, 312/100, 310/100, 307/100,
   302/100, 297/100, 289/100, 279/100, 270/100]

/-- The search loop of `battery_voltage_to_percent`: scan the curve left to
right and return the first index whose entry is below the measured
voltage. -/
def interp_loop (voltage : ℚ) : List ℚ → Nat → Option Nat
  | [], _ => none
  | c :: rest, i => if c < voltage then some i else interp_loop voltage rest (i + 1)

/-- Index of the first discharge-curve entry below the measured voltage. -/
def interp_find (voltage : ℚ) : Option Nat :=
  interp_loop voltage battery_discharge_curve 0

/-- `battery_voltage_to_percent`: above the top calibration point report
100; otherwise linearly interpolate in the bucket found by the scan;
report 0 when no entry is below the voltage.  C `float` arithmetic is
modelled as exact rational arithmetic and C `round` (half away from
zero, applied here to non-negative values only) as Mathlib `round`. -/
def battery_voltage_to_percent (voltage : ℚ) : ℤ :=
  if battery_discharge_curve.getD 0 0 < voltage then 100
  else
    match interp_find voltage with
    | some i =>
      let v0 := battery_discharge_curve.getD i 0
      let v1 := battery_discharge_curve.getD (i - 1) 0
      let p0 : ℚ := ((10 : ℚ) - (i : ℚ)) * 10
      round (p0 + 10 * (voltage - v0) / (v1 - v0))
    | none => 0

/-- State of `battery_travelling_mean`: its two `static float` locals. -/
structure MeanState where
  mean : ℚ
  count : ℚ
deriving Repr, DecidableEq

/-- Zero initialisation of the two statics. -/
def mean_zero : MeanState := { mean := 0, count := 0 }

/-- `battery_travelling_mean`: blend the new value into the running mean and
cap the weight at 10.  Returns the new mean and the updated statics. -/
def battery_travelling_mean (s : MeanState) (new : ℚ) : ℚ × MeanState :=
  let mean := (s.mean * s.count + new * 1) / (s.count + 1)
  let count := if s.count = 10 then 10 else s.count + 1
  (mean, { mean := mean, count := count })

/-- Feed `n` samples all equal to 1 into the zero-initialised mean. -/
def feed_ones : Nat → MeanState
  | 0 => mean_zero
  | n + 1 => (battery_travelling_mean (feed_ones n) 1).2

/-! ## Ring buffer lemmas -/

lemma ring_valid_init : ring_valid ring_init := by
  refine ⟨by decide, by decide, ?_⟩
  simp [ring_init]

lemma ring_dist_lt (r : ring_buf_t) : ring_dist r < RING_BUFFER_LENGTH := by
  simp only [ring_dist, RING_BUFFER_LENGTH]
  omega

lemma ring_contents_length (r : ring_buf_t) :
    (ring_contents r).length = ring_dist r := by
  simp [ring_contents]

lemma ring_dist_init : ring_dist ring_init = 0 := by decide

lemma ring_contents_init : ring_contents ring_init = [] := by
  simp [ring_contents, ring_dist_init]

lemma ring_empty_iff_dist (r : ring_buf_t) (hv : ring_valid r) :
    ring_empty r = true ↔ ring_dist r = 0 := by
  obtain ⟨hh, ht, _⟩ := hv
  simp only [ring_empty, ring_dist, RING_BUFFER_LENGTH, beq_iff_eq] at *
  omega

lemma ring_full_iff_dist (r : ring_buf_t) (hv : ring_valid r) :
    ring_full r = true ↔ ring_dist r = RING_BUFFER_LENGTH - 1 := by
  obtain ⟨hh, ht, _⟩ := hv
  simp only [ring_full, ring_dist, RING_BUFFER_LENGTH, UINT16_MOD, beq_iff_eq] at *
  split <;> omega

lemma ring_push_spec (r : ring_buf_t) (b : Nat) (hv : ring_valid r)
    (hnf : ring_full r = false) :
    ring_valid (ring_push r b) ∧
    ring_dist (ring_push r b) = ring_dist r + 1 ∧
    ring_contents (ring_push r b) = ring_contents r ++ [b] := by
  obtain ⟨hh, ht, hlen⟩ := hv
  have hndist : ring_dist r ≠ RING_BUFFER_LENGTH - 1 := by
    intro hcontra
    rw [← ring_full_iff_dist r ⟨hh, ht, hlen⟩] at hcontra
    rw [hnf] at hcontra
    cases hcontra
  have hhead' : (ring_push r b).head = r.head := by simp [ring_push]
  have hbuf' : (ring_push r b).buffer = r.buffer.set r.tail b := by simp [ring_push]
  have htail' : (ring_push r b).tail = (r.tail + 1) % RING_BUFFER_LENGTH := by
    simp only [ring_push, RING_BUFFER_LENGTH, UINT16_MOD] at *
    split <;> omega
  have hdist : ring_dist (ring_push r b) = ring_dist r + 1 := by
    rw [ring_dist, htail', hhead']
    simp only [ring_dist, RING_BUFFER_LENGTH] at *
    omega
  refine ⟨⟨?_, ?_, ?_⟩, hdist, ?_⟩
  · rw [hhead']; exact hh
  · rw [htail']; exact Nat.mod_lt _ (by decide)
  · rw [hbuf', List.length_set]; exact hlen
  · rw [ring_contents, ring_contents, hdist, hhead', hbuf', List.range_succ,
      List.map_append]
    congr 1
    · apply List.map_eq_map_iff.mpr
      intro i hi
      rw [List.mem_range] at hi
      have hne2 : r.tail ≠ (r.head + i) % RING_BUFFER_LENGTH := by
        simp only [ring_dist, RING_BUFFER_LENGTH] at *
        omega
      rw [List.getD_eq_getElem?_getD, List.getD_eq_getElem?_getD,
        List.getElem?_set_ne hne2]
    · have heq : (r.head + ring_dist r) % RING_BUFFER_LENGTH = r.tail := by
        simp only [ring_dist, RING_BUFFER_LENGTH] at *
        omega
      simp only [List.map_cons, List.map_nil, heq]
      rw [List.getD_eq_getElem?_getD, List.getElem?_set_self (hlen ▸ ht)]
      rfl

lemma ring_pop_spec (r : ring_buf_t) (hv : ring_valid r)
    (hne : ring_empty r = false) :
    ring_valid (ring_pop r).2 ∧
    ring_dist (ring_pop r).2 = ring_dist r - 1 ∧
    ring_contents r = (ring_pop r).1 :: ring_contents (ring_pop r).2 := by
  obtain ⟨hh, ht, hlen⟩ := hv
  have hd0 : ring_dist r ≠ 0 := by
    intro hcontra
    rw [← ring_empty_iff_dist r ⟨hh, ht, hlen⟩] at hcontra
    rw [hne] at hcontra
    cases hcontra
  have hhead' : (ring_pop r).2.head = (r.head + 1) % RING_BUFFER_LENGTH := by
    simp only [ring_pop, RING_BUFFER_LENGTH, UINT16_MOD] at *
    split <;> omega
  have htail' : (ring_pop r).2.tail = r.tail := by simp [ring_pop]
  have hbuf' : (ring_pop r).2.buffer = r.buffer := by simp [ring_pop]
  have hbyte : (ring_pop r).1 = r.buffer.getD r.head 0 := by simp [ring_pop]
  have hdist : ring_dist (ring_pop r).2 = ring_dist r - 1 := by
    rw [ring_dist, htail', hhead']
    simp only [ring_dist, RING_BUFFER_LENGTH] at *
    omega
  refine ⟨⟨?_, ?_, ?_⟩, hdist, ?_⟩
  · rw [hhead']; exact Nat.mod_lt _ (by decide)
  · rw [htail']; exact ht
  · rw [hbuf']; exact hlen
  · obtain ⟨d, hdeq⟩ : ∃ d, ring_dist r = d + 1 :=
      ⟨ring_dist r - 1, by omega⟩
    rw [ring_contents, ring_contents, hdist, hdeq, hhead', hbuf', hbyte]
    simp only [Nat.add_sub_cancel, List.range_succ_eq_map, List.map_cons,
      List.map_map]
    congr 1
    · simp [Nat.mod_eq_of_lt hh]
    · apply List.map_eq_map_iff.mpr
      intro i _
      have hidx : r.head + Nat.succ i = r.head + 1 + i := by omega
      simp only [Function.comp_apply, Nat.mod_add_mod, hidx]

lemma ring_push_list_spec (bs : List Nat) :
    ∀ (r : ring_buf_t), ring_valid r →
    ring_dist r + bs.length ≤ RING_BUFFER_LENGTH - 1 →
    ring_valid (ring_push_list r bs) ∧
    ring_dist (ring_push_list r bs) = ring_dist r + bs.length ∧
    ring_contents (ring_push_list r bs) = ring_contents r ++ bs := by
  induction bs with
  | nil =>
    intro r hv _
    simpa [ring_push_list] using hv
  | cons b rest ih =>
    intro r hv hroom
    have hnf : ring_full r = false := by
      rcases Bool.eq_false_or_eq_true (ring_full r) with h | h
      · exfalso
        rw [ring_full_iff_dist r hv] at h
        simp only [List.length_cons, RING_BUFFER_LENGTH] at *
        omega
      · exact h
    obtain ⟨hv', hd', hc'⟩ := ring_push_spec r b hv hnf
    have hroom' : ring_dist (ring_push r b) + rest.length ≤ RING_BUFFER_LENGTH - 1 := by
      rw [hd']
      simp only [List.length_cons] at hroom
      omega
    obtain ⟨hv'', hd'', hc''⟩ := ih (ring_push r b) hv' hroom'
    refine ⟨?_, ?_, ?_⟩
    · simpa [ring_push_list, List.foldl_cons] using hv''
    · show ring_dist (ring_push_list (ring_push r b) rest) = _
      rw [hd'', hd']
      simp only [List.length_cons]
      omega
    · show ring_contents (ring_push_list (ring_push r b) rest) = _
      rw [hc'', hc', List.append_assoc]
      rfl

lemma ring_pop_n_spec (k : Nat) :
    ∀ (r : ring_buf_t), ring_valid r → k ≤ ring_dist r →
    (ring_pop_n k r).1 = (ring_contents r).take k ∧
    ring_valid (ring_pop_n k r).2 ∧
    ring_dist (ring_pop_n k r).2 = ring_dist r - k := by
  induction k with
  | zero =>
    intro r hv _
    simpa [ring_pop_n] using hv
  | succ k ih =>
    intro r hv hk
    have hne : ring_empty r = false := by
      rcases Bool.eq_false_or_eq_true (ring_empty r) with h | h
      · exfalso
        rw [ring_empty_iff_dist r hv] at h
        omega
      · exact h
    obtain ⟨hv', hd', hc'⟩ := ring_pop_spec r hv hne
    have hk' : k ≤ ring_dist (ring_pop r).2 := by omega
    obtain ⟨h1, h2, h3⟩ := ih (ring_pop r).2 hv' hk'
    refine ⟨?_, ?_, ?_⟩
    · show (ring_pop r).1 :: (ring_pop_n k (ring_pop r).2).1 = _
      rw [hc', List.take_succ_cons, h1]
    · exact h2
    · show ring_dist (ring_pop_n k (ring_pop r).2).2 = _
      rw [h3, hd']
      omega

lemma write_into_rx_spec (data : List Nat) :
    ∀ (r : ring_buf_t), ring_valid r →
    ring_valid (write_into_rx r data) ∧
    ring_contents (write_into_rx r data) =
      ring_contents r ++ data.take (RING_BUFFER_LENGTH - 1 - ring_dist r) := by
  induction data with
  | nil =>
    intro r hv
    simpa [write_into_rx] using hv
  | cons b rest ih =>
    intro r hv
    by_cases hf : ring_full r = true
    · have hd : ring_dist r = RING_BUFFER_LENGTH - 1 :=
        (ring_full_iff_dist r hv).mp hf
      have htake : RING_BUFFER_LENGTH - 1 - ring_dist r = 0 := by omega
      simp [write_into_rx, hf, htake, hv]
    · have hnf : ring_full r = false := by
        rcases Bool.eq_false_or_eq_true (ring_full r) with h | h
        · exact absurd h hf
        · exact h
      have hd : ring_dist r ≠ RING_BUFFER_LENGTH - 1 := by
        intro hcontra
        exact hf ((ring_full_iff_dist r hv).mpr hcontra)
      obtain ⟨hv', hdist', hc'⟩ := ring_push_spec r b hv hnf
      obtain ⟨hv'', hc''⟩ := ih (ring_push r b) hv'
      have hstep : write_into_rx r (b :: rest) = write_into_rx (ring_push r b) rest := by
        simp [write_into_rx, hnf]
      have hdlt : ring_dist r < RING_BUFFER_LENGTH := ring_dist_lt r
      have htake : RING_BUFFER_LENGTH - 1 - ring_dist r =
          (RING_BUFFER_LENGTH - 1 - ring_dist (ring_push r b)) + 1 := by
        rw [hdist']
        simp only [RING_BUFFER_LENGTH] at *
        omega
      refine ⟨hstep ▸ hv'', ?_⟩
      rw [hstep, hc'', hc', htake, List.take_succ_cons, List.append_assoc]
      rfl

lemma flush_loop_spec (fuel : Nat) :
    ∀ (r : ring_buf_t) (acc : List Nat) (m : Nat), ring_valid r →
    ring_dist r ≤ fuel → acc.length < m →
    (flush_loop fuel r acc m).1.length =
      acc.length + min (ring_dist r) (m - acc.length) ∧
    ring_valid (flush_loop fuel r acc m).2 ∧
    ring_dist (flush_loop fuel r acc m).2 =
      ring_dist r - min (ring_dist r) (m - acc.length) := by
  induction fuel with
  | zero =>
    intro r acc m hv hfuel hacc
    have hd : ring_dist r = 0 := by omega
    simp [flush_loop, hd, hv]
  | succ fuel ih =>
    intro r acc m hv hfuel hacc
    by_cases he : ring_empty r = true
    · have hd : ring_dist r = 0 := (ring_empty_iff_dist r hv).mp he
      simp [flush_loop, he, hd, hv]
    · have hne : ring_empty r = false := by
        rcases Bool.eq_false_or_eq_true (ring_empty r) with h | h
        · exact absurd h he
        · exact h
      have hd0 : ring_dist r ≠ 0 := by
        intro hcontra
        exact he ((ring_empty_iff_dist r hv).mpr hcontra)
      obtain ⟨hv', hd', _⟩ := ring_pop_spec r hv hne
      by_cases hm : m ≤ acc.length + 1
      · have hstep : flush_loop (fuel + 1) r acc m =
            (acc ++ [(ring_pop r).1], (ring_pop r).2) := by
          simp [flush_loop, hne, hm]
        rw [hstep]
        have hmeq : m = acc.length + 1 := by omega
        refine ⟨?_, hv', ?_⟩
        · simp only [List.length_append, List.length_cons, List.length_nil]
          omega
        · rw [hd']
          omega
      · have hstep : flush_loop (fuel + 1) r acc m =
            flush_loop fuel (ring_pop r).2 (acc ++ [(ring_pop r).1]) m := by
          simp [flush_loop, hne, hm]
        have hfuel' : ring_dist (ring_pop r).2 ≤ fuel := by
          rw [hd']; omega
        have hacc' : (acc ++ [(ring_pop r).1]).length < m := by
          simp only [List.length_append, List.length_cons, List.length_nil]
          omega
        obtain ⟨h1, h2, h3⟩ := ih (ring_pop r).2 (acc ++ [(ring_pop r).1]) m hv' hfuel' hacc'
        rw [hstep]
        refine ⟨?_, h2, ?_⟩
        · rw [h1, hd']
          simp only [List.length_append, List.length_cons, List.length_nil]
          omega
        · rw [h3, hd']
          simp only [List.length_append, List.length_cons, List.length_nil]
          omega

lemma bool_eq_false_of_ne_true {b : Bool} (h : ¬ b = true) : b = false := by
  cases b with
  | false => rfl
  | true => exact absurd rfl h

lemma ring_empty_false_of_dist (r : ring_buf_t) (hv : ring_valid r)
    (h : ring_dist r ≠ 0) : ring_empty r = false := by
  apply bool_eq_false_of_ne_true
  rw [ring_empty_iff_dist r hv]
  exact h

/-! ## Flush engine lemmas -/

lemma ble_flush_tx_of_empty (s : BleState) (h : ring_empty s.tx = true) :
    ble_flush_tx s = (s, none) := by
  simp [ble_flush_tx, h]

lemma ble_flush_tx_spec (s : BleState) (hv : ring_valid s.tx)
    (hm : 1 ≤ s.negotiated_mtu) (hne : ring_empty s.tx = false) :
    ((ble_flush_tx s).2.getD []).length =
      min (ring_dist s.tx) s.negotiated_mtu ∧
    ring_valid (ble_flush_tx s).1.tx ∧
    ring_dist (ble_flush_tx s).1.tx =
      ring_dist s.tx - min (ring_dist s.tx) s.negotiated_mtu ∧
    (ble_flush_tx s).1.negotiated_mtu = s.negotiated_mtu ∧
    (ble_flush_tx s).1.rx = s.rx ∧
    (ble_flush_tx s).1.connection = s.connection ∧
    (ble_flush_tx s).1.advertising = s.advertising := by
  have hfuel : ring_dist s.tx ≤ RING_BUFFER_LENGTH := le_of_lt (ring_dist_lt _)
  have hacc : ([] : List Nat).length < s.negotiated_mtu := by
    simpa using hm
  obtain ⟨h1, h2, h3⟩ :=
    flush_loop_spec RING_BUFFER_LENGTH s.tx [] s.negotiated_mtu hv hfuel hacc
  simp only [List.length_nil, Nat.zero_add, Nat.sub_zero] at h1 h3
  simp only [ble_flush_tx, hne, Bool.false_eq_true, if_false]
  refine ⟨h1, h2, h3, ?_, ?_, ?_, ?_⟩ <;> trivial

lemma flush_loop_mtu_zero (fuel : Nat) (r : ring_buf_t)
    (hne : ring_empty r = false) :
    flush_loop (fuel + 1) r [] 0 = ([(ring_pop r).1], (ring_pop r).2) := by
  simp [flush_loop, hne]

/-! ## Claim theorems: ring buffer and BLE transport -/

/-- Claim C1: for every MTU exchange request handled while connected, the
stored negotiated MTU equals `min(local max MTU, peer-requested MTU) - 3`;
in particular a peer request of 64 yields 61 and a peer request of 512
yields 125. -/
theorem C1_mtu_negotiation :
    (∀ (s : BleState) (client_rx_mtu : Nat),
      3 ≤ client_rx_mtu → client_rx_mtu < UINT16_MOD →
      (SWI2_handle_evt s (.exchange_mtu_request client_rx_mtu)).negotiated_mtu
        = min MAX_MTU_LENGTH client_rx_mtu - 3) ∧
    (∀ s : BleState,
      (SWI2_handle_evt s (.exchange_mtu_request 64)).negotiated_mtu = 61) ∧
    (∀ s : BleState,
      (SWI2_handle_evt s (.exchange_mtu_request 512)).negotiated_mtu = 125) := by
  refine ⟨?_, ?_, ?_⟩
  · intro s c h3 hlt
    simp only [SWI2_handle_evt, MAX_MTU_LENGTH, UINT16_MOD] at *
    split <;> omega
  · intro s
    simp [SWI2_handle_evt, MAX_MTU_LENGTH, UINT16_MOD]
  · intro s
    simp [SWI2_handle_evt, MAX_MTU_LENGTH, UINT16_MOD]

theorem C1_mtu_negotiation_witness :
    3 ≤ 64 ∧ 64 < UINT16_MOD ∧
    (SWI2_handle_evt ble_init_state (.exchange_mtu_request 64)).negotiated_mtu
      = min MAX_MTU_LENGTH 64 - 3 :=
  ⟨by decide, by decide,
    C1_mtu_negotiation.1 ble_init_state 64 (by decide) (by decide)⟩

/-- Claim C3: pushing any non-empty sequence of at most `capacity - 1` bytes
into an initially empty ring buffer leaves it non-empty, successive pops
return exactly those bytes in FIFO order, and the buffer is empty after
popping them all. -/
theorem C3_ring_fifo (bs : List Nat) (h1 : 0 < bs.length)
    (h2 : bs.length ≤ RING_BUFFER_LENGTH - 1) :
    ring_empty (ring_push_list ring_init bs) = false ∧
    (ring_pop_n bs.length (ring_push_list ring_init bs)).1 = bs ∧
    ring_empty (ring_pop_n bs.length (ring_push_list ring_init bs)).2 = true := by
  have hroom : ring_dist ring_init + bs.length ≤ RING_BUFFER_LENGTH - 1 := by
    rw [ring_dist_init]
    simpa using h2
  obtain ⟨hv1, hd1, hc1⟩ := ring_push_list_spec bs ring_init ring_valid_init hroom
  rw [ring_dist_init, Nat.zero_add] at hd1
  rw [ring_contents_init, List.nil_append] at hc1
  have hne : ring_empty (ring_push_list ring_init bs) = false := by
    apply ring_empty_false_of_dist _ hv1
    omega
  obtain ⟨hp1, hpv, hpd⟩ :=
    ring_pop_n_spec bs.length (ring_push_list ring_init bs) hv1 (le_of_eq hd1.symm)
  refine ⟨hne, ?_, ?_⟩
  · rw [hp1, hc1, List.take_length]
  · rw [ring_empty_iff_dist _ hpv, hpd, hd1]
    omega

theorem C3_ring_fifo_witness :
    0 < ([1, 2, 3] : List Nat).length ∧
    ([1, 2, 3] : List Nat).length ≤ RING_BUFFER_LENGTH - 1 ∧
    (ring_empty (ring_push_list ring_init [1, 2, 3]) = false ∧
     (ring_pop_n 3 (ring_push_list ring_init [1, 2, 3])).1 = [1, 2, 3] ∧
     ring_empty (ring_pop_n 3 (ring_push_list ring_init [1, 2, 3])).2 = true) :=
  ⟨by decide, by decide, C3_ring_fifo [1, 2, 3] (by decide) (by decide)⟩

/-- Claim C6: calling flush with an empty transmit ring buffer performs zero
sends (no frame) and leaves the whole state — both ring buffers, the
connection handle and the negotiated MTU — unchanged. -/
theorem C6_flush_empty_noop (s : BleState) (h : ring_empty s.tx = true) :
    ble_flush_tx s = (s, none) :=
  ble_flush_tx_of_empty s h

theorem C6_flush_empty_noop_witness :
    ring_empty ble_init_state.tx = true ∧
    ble_flush_tx ble_init_state = (ble_init_state, none) :=
  ⟨by decide, C6_flush_empty_noop ble_init_state (by decide)⟩

/-- Claim C7: a characteristic-write event appends to the receive ring
buffer exactly the longest fitting prefix of the payload (in order,
stopping at the first moment the buffer is full); excess bytes are
dropped silently and no other state is modified. -/
theorem C7_write_event_append (s : BleState) (data : List Nat)
    (hv : ring_valid s.rx) :
    ring_valid (SWI2_handle_evt s (.write data)).rx ∧
    ring_contents (SWI2_handle_evt s (.write data)).rx =
      ring_contents s.rx ++
        data.take (RING_BUFFER_LENGTH - 1 - ring_dist s.rx) ∧
    (SWI2_handle_evt s (.write data)).tx = s.tx ∧
    (SWI2_handle_evt s (.write data)).connection = s.connection ∧
    (SWI2_handle_evt s (.write data)).advertising = s.advertising ∧
    (SWI2_handle_evt s (.write data)).negotiated_mtu = s.negotiated_mtu := by
  obtain ⟨h1, h2⟩ := write_into_rx_spec data s.rx hv
  exact ⟨h1, h2, rfl, rfl, rfl, rfl⟩

theorem C7_write_event_append_witness :
    ring_valid ble_init_state.rx ∧
    ring_contents (SWI2_handle_evt ble_init_state (.write [7, 8])).rx =
      ring_contents ble_init_state.rx ++
        ([7, 8] : List Nat).take
          (RING_BUFFER_LENGTH - 1 - ring_dist ble_init_state.rx) :=
  ⟨ring_valid_init,
    (C7_write_event_append ble_init_state [7, 8] ring_valid_init).2.1⟩

/-- Claim C10: both head and tail stay in `[0, RING_BUFFER_LENGTH)` from the
zero-initialised buffers through every push and pop, so the storage
accesses of `ring_push` (at `tail`) and `ring_pop` (at `head`) are always
within the bounds of the storage array. -/
theorem C10_ring_index_invariant :
    ring_valid ring_init ∧
    ∀ (r : ring_buf_t) (b : Nat), ring_valid r →
      ring_valid (ring_push r b) ∧ ring_valid (ring_pop r).2 ∧
      r.tail < r.buffer.length ∧ r.head < r.buffer.length := by
  refine ⟨ring_valid_init, ?_⟩
  intro r b hv
  obtain ⟨hh, ht, hlen⟩ := hv
  have hwrap : ∀ t : Nat, t < RING_BUFFER_LENGTH →
      (if (t + 1) % UINT16_MOD = RING_BUFFER_LENGTH then 0
       else (t + 1) % UINT16_MOD) < RING_BUFFER_LENGTH := by
    intro t htl
    simp only [RING_BUFFER_LENGTH, UINT16_MOD] at *
    split <;> omega
  refine ⟨⟨?_, ?_, ?_⟩, ⟨?_, ?_, ?_⟩, ?_, ?_⟩
  · simpa [ring_push] using hh
  · simp only [ring_push]
    exact hwrap r.tail ht
  · simp [ring_push, List.length_set, hlen]
  · simp only [ring_pop]
    exact hwrap r.head hh
  · simpa [ring_pop] using ht
  · simpa [ring_pop] using hlen
  · omega
  · omega

theorem C10_ring_index_invariant_witness :
    ring_valid ring_init ∧
    (ring_valid (ring_push ring_init 7) ∧ ring_valid (ring_pop ring_init).2 ∧
     ring_init.tail < ring_init.buffer.length ∧
     ring_init.head < ring_init.buffer.length) :=
  ⟨C10_ring_index_invariant.1,
    C10_ring_index_invariant.2 ring_init 7 ring_valid_init⟩

/-- Claim C5 (as amended): with `negotiated_mtu ≥ 1` each flush call sends
at most one frame of at most `negotiated_mtu` bytes; and with the tx ring
holding `negotiated_mtu * 2 + 5` bytes, exactly 3 calls drain it provided
`negotiated_mtu ≥ 5` (not merely `≥ 1`: for `mtu < 5` the third call
cannot absorb the 5-byte remainder). -/
theorem C5_flush_drain :
    (∀ s : BleState, ring_valid s.tx → 1 ≤ s.negotiated_mtu →
      ((ble_flush_tx s).2.getD []).length ≤ s.negotiated_mtu) ∧
    (∀ s : BleState, ring_valid s.tx → 5 ≤ s.negotiated_mtu →
      ring_dist s.tx = s.negotiated_mtu * 2 + 5 →
      ring_empty (ble_flush_tx s).1.tx = false ∧
      ring_empty (ble_flush_tx (ble_flush_tx s).1).1.tx = false ∧
      ring_empty (ble_flush_tx (ble_flush_tx (ble_flush_tx s).1).1).1.tx
        = true) := by
  constructor
  · intro s hv hm
    by_cases he : ring_empty s.tx = true
    · rw [ble_flush_tx_of_empty s he]
      simp
    · have hne : ring_empty s.tx = false := bool_eq_false_of_ne_true he
      obtain ⟨h1, _, _, _, _, _, _⟩ := ble_flush_tx_spec s hv hm hne
      rw [h1]
      omega
  · intro s hv hm hd
    set m := s.negotiated_mtu with hmdef
    have hne0 : ring_empty s.tx = false :=
      ring_empty_false_of_dist s.tx hv (by omega)
    obtain ⟨_, hv1, hd1, hm1, _, _, _⟩ :=
      ble_flush_tx_spec s hv (by omega) hne0
    set s1 := (ble_flush_tx s).1 with hs1
    have hd1' : ring_dist s1.tx = m + 5 := by
      rw [hd1, hd]
      omega
    have hne1 : ring_empty s1.tx = false :=
      ring_empty_false_of_dist s1.tx hv1 (by omega)
    obtain ⟨_, hv2, hd2, hm2, _, _, _⟩ :=
      ble_flush_tx_spec s1 hv1 (by rw [hm1]; omega) hne1
    set s2 := (ble_flush_tx s1).1 with hs2
    have hd2' : ring_dist s2.tx = 5 := by
      rw [hd2, hd1', hm1]
      omega
    have hne2 : ring_empty s2.tx = false :=
      ring_empty_false_of_dist s2.tx hv2 (by omega)
    obtain ⟨_, hv3, hd3, _, _, _, _⟩ :=
      ble_flush_tx_spec s2 hv2 (by rw [hm2, hm1]; omega) hne2
    have hd3' : ring_dist (ble_flush_tx s2).1.tx = 0 := by
      rw [hd3, hd2', hm2, hm1]
      omega
    refine ⟨hne1, hne2, ?_⟩
    rw [ring_empty_iff_dist _ hv3]
    exact hd3'

theorem C5_flush_drain_witness :
    ring_valid c5_state.tx ∧ 1 ≤ c5_state.negotiated_mtu ∧
    ((ble_flush_tx c5_state).2.getD []).length ≤ c5_state.negotiated_mtu :=
  ⟨⟨by decide, by decide, by decide⟩, by decide,
    C5_flush_drain.1 c5_state ⟨by decide, by decide, by decide⟩ (by decide)⟩

/-- Claim C5, counterexample to the claim as stated: the claim asserts that
`negotiated_mtu ≥ 1` suffices for the `2 * mtu + 5`-byte backlog to drain
in exactly 3 flush calls, but with `negotiated_mtu = 1` and 7 bytes
pending, three calls send only 3 bytes and the tx ring is still
non-empty (4 bytes remain). -/
theorem C5_flush_drain_counterexample :
    c5_state.negotiated_mtu = 1 ∧
    ring_dist c5_state.tx = c5_state.negotiated_mtu * 2 + 5 ∧
    ring_empty (ble_flush_tx (ble_flush_tx (ble_flush_tx c5_state).1).1).1.tx
      = false ∧
    ring_dist (ble_flush_tx (ble_flush_tx (ble_flush_tx c5_state).1).1).1.tx
      = 4 := by
  refine ⟨by decide, by decide, by decide, by decide⟩

/-- Claim C4 (as amended): before any MTU exchange the stored
`negotiated_mtu` is zero (C static zero-initialisation, and it is never
reset on a fresh connection), and with this zero value the flush engine
sends degenerate 1-byte frames whenever the tx ring is non-empty — it
does not frame at the BLE-default 23-equivalent (20-byte) payload. -/
theorem C4_initial_mtu_zero :
    ble_init_state.negotiated_mtu = 0 ∧
    (∀ s : BleState, ring_valid s.tx → s.negotiated_mtu = 0 →
      ring_empty s.tx = false →
      (ble_flush_tx s).2 = some [(ring_pop s.tx).1]) := by
  refine ⟨rfl, ?_⟩
  intro s hv hm hne
  simp only [ble_flush_tx, hne, Bool.false_eq_true, if_false, hm]
  rw [show RING_BUFFER_LENGTH = 1068 + 1 from rfl,
    flush_loop_mtu_zero 1068 s.tx hne]

theorem C4_initial_mtu_zero_witness :
    ring_valid c4_state.tx ∧ c4_state.negotiated_mtu = 0 ∧
    ring_empty c4_state.tx = false ∧
    (ble_flush_tx c4_state).2 = some [(ring_pop c4_state.tx).1] :=
  ⟨⟨by decide, by decide, by decide⟩, by decide, by decide,
    C4_initial_mtu_zero.2 c4_state ⟨by decide, by decide, by decide⟩
      (by decide) (by decide)⟩

/-- Claim C4, counterexample to the claim as stated: in the initial state
(before any MTU exchange) `negotiated_mtu` is 0, not a 23-equivalent
default, and flushing a tx ring holding 5 bytes sends a frame of exactly
1 byte instead of one 5-byte frame within a 20-byte default payload. -/
theorem C4_initial_mtu_zero_counterexample :
    ble_init_state.negotiated_mtu = 0 ∧
    ble_init_state.negotiated_mtu ≠ 20 ∧ ble_init_state.negotiated_mtu ≠ 23 ∧
    ring_dist c4_state.tx = 5 ∧
    ((ble_flush_tx c4_state).2.getD []).length = 1 := by
  refine ⟨by decide, by decide, by decide, by decide, by decide⟩

/-! ## Battery estimator lemmas -/

lemma interp_loop_some_spec (v : ℚ) :
    ∀ (l : List ℚ) (k i : Nat), interp_loop v l k = some i →
    ∃ d, i = k + d ∧ d < l.length ∧ l.getD d 0 < v ∧
      ∀ e < d, ¬ l.getD e 0 < v := by
  intro l
  induction l with
  | nil =>
    intro k i h
    simp [interp_loop] at h
  | cons c rest ih =>
    intro k i h
    by_cases hc : c < v
    · rw [interp_loop, if_pos hc, Option.some_inj] at h
      refine ⟨0, by omega, by simp, by simpa using hc, ?_⟩
      intro e he
      omega
    · rw [interp_loop, if_neg hc] at h
      obtain ⟨d, hd1, hd2, hd3, hd4⟩ := ih (k + 1) i h
      refine ⟨d + 1, by omega, by simp only [List.length_cons]; omega,
        by simpa using hd3, ?_⟩
      intro e he
      cases e with
      | zero => simpa using hc
      | succ e' =>
        have := hd4 e' (by omega)
        simpa using this

lemma interp_loop_none_of (v : ℚ) :
    ∀ (l : List ℚ) (k : Nat), (∀ c ∈ l, ¬ c < v) → interp_loop v l k = none := by
  intro l
  induction l with
  | nil => intro k _; rfl
  | cons c rest ih =>
    intro k hall
    rw [interp_loop, if_neg (hall c (List.mem_cons_self c rest))]
    exact ih (k + 1) (fun x hx => hall x (List.mem_cons_of_mem c hx))

lemma interp_value_bounds (p v v0 v1 : ℚ) (hp0 : 0 ≤ p) (hp1 : p + 10 ≤ 100)
    (h0 : v0 < v) (h1 : v ≤ v1) :
    0 ≤ p + 10 * (v - v0) / (v1 - v0) ∧
    p + 10 * (v - v0) / (v1 - v0) ≤ 100 := by
  have hpos : 0 < v1 - v0 := by linarith
  have ht0 : 0 < (v - v0) / (v1 - v0) := div_pos (by linarith) hpos
  have ht1 : (v - v0) / (v1 - v0) ≤ 1 := (div_le_one hpos).mpr (by linarith)
  have hsplit : 10 * (v - v0) / (v1 - v0) = 10 * ((v - v0) / (v1 - v0)) := by
    ring
  rw [hsplit]
  constructor <;> linarith

lemma round_bounds_aux (x : ℚ) (h0 : 0 ≤ x) (h1 : x ≤ 100) :
    0 ≤ round x ∧ round x ≤ 100 := by
  rw [round_eq]
  constructor
  · calc (0 : ℤ) = ⌊(0 : ℚ)⌋ := by norm_num
      _ ≤ ⌊x + 1/2⌋ := Int.floor_mono (by linarith)
  · calc ⌊x + 1/2⌋ ≤ ⌊(100 : ℚ) + 1/2⌋ := Int.floor_mono (by linarith)
      _ = 100 := by norm_num

lemma round_interp_bounds (p v v0 v1 : ℚ) (hp0 : 0 ≤ p) (hp1 : p + 10 ≤ 100)
    (h0 : v0 < v) (h1 : v ≤ v1) :
    0 ≤ round (p + 10 * (v - v0) / (v1 - v0)) ∧
    round (p + 10 * (v - v0) / (v1 - v0)) ≤ 100 := by
  obtain ⟨ha, hb⟩ := interp_value_bounds p v v0 v1 hp0 hp1 h0 h1
  exact round_bounds_aux _ ha hb

lemma interp_find_spec (v : ℚ) (i : Nat) (h : interp_find v = some i) :
    i < 11 ∧ battery_discharge_curve.getD i 0 < v ∧
    ∀ e < i, ¬ battery_discharge_curve.getD e 0 < v := by
  obtain ⟨d, hd1, hd2, hd3, hd4⟩ :=
    interp_loop_some_spec v battery_discharge_curve 0 i h
  have hid : i = d := by omega
  subst hid
  refine ⟨?_, hd3, hd4⟩
  simpa [battery_discharge_curve] using hd2

lemma feed_ones_spec :
    ∀ n : Nat, 0 ≤ (feed_ones n).count ∧ (1 ≤ n → (feed_ones n).mean = 1) := by
  intro n
  induction n with
  | zero => simp [feed_ones, mean_zero]
  | succ n ih =>
    obtain ⟨hc, hm⟩ := ih
    have hstep : feed_ones (n + 1) = (battery_travelling_mean (feed_ones n) 1).2 :=
      rfl
    rw [hstep]
    rcases Nat.eq_zero_or_pos n with hn | hn
    · subst hn
      constructor
      · norm_num [feed_ones, battery_travelling_mean, mean_zero]
      · intro _
        norm_num [feed_ones, battery_travelling_mean, mean_zero]
    · have hm1 : (feed_ones n).mean = 1 := hm hn
      generalize feed_ones n = t at hc hm1 hstep
      have hpos : (0 : ℚ) < t.count + 1 := by linarith
      constructor
      · simp only [battery_travelling_mean]
        split
        · norm_num
        · linarith
      · intro _
        simp only [battery_travelling_mean, hm1]
        rw [div_eq_one_iff_eq (ne_of_gt hpos)]
        ring

/-! ## Claim theorems: battery estimator -/

/-- Claim C2 (as amended): the interpolation maps voltage 3.80 to 100%, any
voltage of 2.70 or below to 0%, and the voltage 3.045 — exactly halfway
between the calibration points 3.02 and 3.07, which delimit the 40%→50%
bucket (not the 50%→60% one) — to 45%. -/
theorem C2_battery_interpolation :
    battery_voltage_to_percent (380/100) = 100 ∧
    (∀ v : ℚ, v ≤ 270/100 → battery_voltage_to_percent v = 0) ∧
    battery_voltage_to_percent (609/200) = 45 := by
  refine ⟨?_, ?_, ?_⟩
  · have hfind : interp_find (380/100) = some 1 := by
      unfold interp_find battery_discharge_curve
      rw [interp_loop, if_neg (by norm_num), interp_loop, if_pos (by norm_num)]
    unfold battery_voltage_to_percent
    rw [if_neg (by norm_num [battery_discharge_curve]), hfind]
    show round ((((10:ℚ) - (1:ℕ)) * 10) +
        10 * (380/100 - battery_discharge_curve.getD 1 0) /
          (battery_discharge_curve.getD 0 0 - battery_discharge_curve.getD 1 0))
      = 100
    norm_num [battery_discharge_curve, round_eq]
  · intro v hv
    have htop : ¬ battery_discharge_curve.getD 0 0 < v := by
      simp only [battery_discharge_curve]
      norm_num
      linarith
    have hnone : interp_find v = none := by
      apply interp_loop_none_of
      intro c hc
      fin_cases hc <;> · norm_num; linarith
    unfold battery_voltage_to_percent
    rw [if_neg htop, hnone]
  · have hfind : interp_find (609/200) = some 6 := by
      unfold interp_find battery_discharge_curve
      rw [interp_loop, if_neg (by norm_num), interp_loop, if_neg (by norm_num),
        interp_loop, if_neg (by norm_num), interp_loop, if_neg (by norm_num),
        interp_loop, if_neg (by norm_num), interp_loop, if_neg (by norm_num),
        interp_loop, if_pos (by norm_num)]
    unfold battery_voltage_to_percent
    rw [if_neg (by norm_num [battery_discharge_curve]), hfind]
    show round ((((10:ℚ) - (6:ℕ)) * 10) +
        10 * (609/200 - battery_discharge_curve.getD 6 0) /
          (battery_discharge_curve.getD 5 0 - battery_discharge_curve.getD 6 0))
      = 45
    norm_num [battery_discharge_curve, round_eq]

theorem C2_battery_interpolation_witness :
    ((5:ℚ)/2 ≤ 270/100) ∧ battery_voltage_to_percent (5/2) = 0 :=
  ⟨by norm_num, C2_battery_interpolation.2.1 (5/2) (by norm_num)⟩

/-- Claim C2, counterexample to the claim as stated: the claim asserts that
the voltage 3.045, halfway between the calibration points 3.02 and 3.07,
maps to 55%; the code maps it to 45% (3.07 is the 50% point and 3.02 the
40% point, so their bucket is 40%→50%, not 50%→60%). -/
theorem C2_battery_interpolation_counterexample :
    battery_voltage_to_percent (609/200) = 45 ∧
    ¬ battery_voltage_to_percent (609/200) = 55 := by
  have hfind : interp_find (609/200) = some 6 := by
    unfold interp_find battery_discharge_curve
    rw [interp_loop, if_neg (by norm_num), interp_loop, if_neg (by norm_num),
      interp_loop, if_neg (by norm_num), interp_loop, if_neg (by norm_num),
      interp_loop, if_neg (by norm_num), interp_loop, if_neg (by norm_num),
      interp_loop, if_pos (by norm_num)]
  have hval : battery_voltage_to_percent (609/200) = 45 := by
    unfold battery_voltage_to_percent
    rw [if_neg (by norm_num [battery_discharge_curve]), hfind]
    show round ((((10:ℚ) - (6:ℕ)) * 10) +
        10 * (609/200 - battery_discharge_curve.getD 6 0) /
          (battery_discharge_curve.getD 5 0 - battery_discharge_curve.getD 6 0))
      = 45
    norm_num [battery_discharge_curve, round_eq]
  exact ⟨hval, by rw [hval]; norm_num⟩

/-- Claim C8: the travelling mean satisfies the stated recurrence
`mean_n = (mean_{n-1} * w_{n-1} + v_n) / (w_{n-1} + 1)` with the weight
capped at 10; feeding consecutive 1-values into the zero-initialised
mean makes it exactly 1 from the first sample on (in particular before
the 10th sample and through the 11th); and once the cap is reached a
single value `v` moves the mean by exactly `(v - mean) / 11`. -/
theorem C8_travelling_mean :
    (∀ (s : MeanState) (v : ℚ),
      (battery_travelling_mean s v).1 = (s.mean * s.count + v) / (s.count + 1)) ∧
    (∀ k : Nat, 1 ≤ k → (feed_ones k).mean = 1) ∧
    (∀ (s : MeanState) (v : ℚ), s.count = 10 →
      (battery_travelling_mean s v).2.count = 10 ∧
      (battery_travelling_mean s v).1 - s.mean = (v - s.mean) / 11) := by
  refine ⟨?_, ?_, ?_⟩
  · intro s v
    simp [battery_travelling_mean]
  · intro k hk
    exact (feed_ones_spec k).2 hk
  · intro s v h
    constructor
    · simp [battery_travelling_mean, h]
    · simp only [battery_travelling_mean, h]
      field_simp
      ring

theorem C8_travelling_mean_witness :
    (1 ≤ 11 ∧ (feed_ones 11).mean = 1) ∧
    (({ mean := 2, count := 10 } : MeanState).count = 10 ∧
      (battery_travelling_mean { mean := 2, count := 10 } 13).2.count = 10 ∧
      (battery_travelling_mean { mean := 2, count := 10 } 13).1 - 2 =
        ((13 : ℚ) - 2) / 11) :=
  ⟨⟨by norm_num, C8_travelling_mean.2.1 11 (by norm_num)⟩,
    rfl, C8_travelling_mean.2.2 { mean := 2, count := 10 } 13 rfl⟩

/-- Claim C9: `battery_voltage_to_percent` is total and always lands in
`[0, 100]`; and whenever the interpolation branch is reached (the early
100% return was not taken and the scan found an index `i`), `i ≥ 1`
holds, so `curve[i-1]` is a valid access, and the divisor
`curve[i-1] - curve[i]` is nonzero because the curve is strictly
decreasing there. -/
theorem C9_percent_total_in_range :
    ∀ v : ℚ,
      (0 ≤ battery_voltage_to_percent v ∧ battery_voltage_to_percent v ≤ 100) ∧
      (¬ battery_discharge_curve.getD 0 0 < v →
        ∀ i, interp_find v = some i →
          1 ≤ i ∧ i ≤ 10 ∧
          battery_discharge_curve.getD i 0 <
            battery_discharge_curve.getD (i - 1) 0 ∧
          battery_discharge_curve.getD (i - 1) 0 -
            battery_discharge_curve.getD i 0 ≠ 0) := by
  intro v
  constructor
  · by_cases htop : battery_discharge_curve.getD 0 0 < v
    · unfold battery_voltage_to_percent
      rw [if_pos htop]
      norm_num
    · cases hfind : interp_find v with
      | none =>
        unfold battery_voltage_to_percent
        rw [if_neg htop, hfind]
        show (0 : ℤ) ≤ 0 ∧ (0 : ℤ) ≤ 100
        norm_num
      | some i =>
        obtain ⟨hi11, hvi, hprev⟩ := interp_find_spec v i hfind
        have hi1 : 1 ≤ i := by
          rcases Nat.eq_zero_or_pos i with h0 | h1
          · subst h0; exact absurd hvi htop
          · exact h1
        have hvle : v ≤ battery_discharge_curve.getD (i - 1) 0 :=
          le_of_not_lt (hprev (i - 1) (by omega))
        have hval : battery_voltage_to_percent v =
            round ((((10 : ℚ) - (i : ℚ)) * 10) +
              10 * (v - battery_discharge_curve.getD i 0) /
                (battery_discharge_curve.getD (i - 1) 0 -
                 battery_discharge_curve.getD i 0)) := by
          unfold battery_voltage_to_percent
          rw [if_neg htop, hfind]
        rw [hval]
        interval_cases i <;>
          exact round_interp_bounds _ v _ _ (by norm_num) (by norm_num) hvi hvle
  · intro htop i hfind
    obtain ⟨hi11, hvi, hprev⟩ := interp_find_spec v i hfind
    have hi1 : 1 ≤ i := by
      rcases Nat.eq_zero_or_pos i with h0 | h1
      · subst h0; exact absurd hvi htop
      · exact h1
    refine ⟨hi1, by omega, ?_, ?_⟩ <;>
      · interval_cases i <;> norm_num [battery_discharge_curve]

theorem C9_percent_total_in_range_witness :
    (0 ≤ battery_voltage_to_percent 3 ∧ battery_voltage_to_percent 3 ≤ 100) ∧
    (¬ battery_discharge_curve.getD 0 0 < (3 : ℚ)) ∧
    interp_find 3 = some 7 ∧
    (1 ≤ 7 ∧ 7 ≤ 10 ∧
      battery_discharge_curve.getD 7 0 < battery_discharge_curve.getD (7 - 1) 0 ∧
      battery_discharge_curve.getD (7 - 1) 0 -
        battery_discharge_curve.getD 7 0 ≠ 0) := by
  have h1 : ¬ battery_discharge_curve.getD 0 0 < (3 : ℚ) := by
    norm_num [battery_discharge_curve]
  have h2 : interp_find 3 = some 7 := by
    unfold interp_find battery_discharge_curve
    rw [interp_loop, if_neg (by norm_num), interp_loop, if_neg (by norm_num),
      interp_loop, if_neg (by norm_num), interp_loop, if_neg (by norm_num),
      interp_loop, if_neg (by norm_num), interp_loop, if_neg (by norm_num),
      interp_loop, if_neg (by norm_num), interp_loop, if_pos (by norm_num)]
  exact ⟨(C9_percent_total_in_range 3).1, h1, h2,
    (C9_percent_total_in_range 3).2 h1 7 h2⟩

end Monocle
